import Mathlib

/-!
# Verification of the NoGo MCTS agent (`agent.h`)

Shallow embedding of the Monte-Carlo tree search player (`class Node`,
`class MCTSplayer`) of `agent.h`, together with proofs settling the spec's
claims about it.

Modelling conventions:

* The board (`board.h`) and move (`action.h`) types are external services of
  the repository and are not under `src/`; they are modelled from the spec's
  interface description (§6): a board is a position exposing the side to move
  (`who_take_turns`) and a legality-checked application
  `apply (position, color) : legal/illegal` which mutates only when legal.
  We represent a position as a finite game tree: the list of legal
  `(position, color)` pairs together with the successor position of each.
* Machine integers (`int win, games`) only ever start at `0` and are
  incremented, so they are modelled as `ℕ`.
* The C++ floating point scores are modelled over the reals:
  `Node::UCTvalue` declares return type `float` and returns `DBL_MAX` for an
  unvisited node; the `double → float` conversion of `DBL_MAX` overflows to
  `+∞`, so the unvisited branch is modelled as `⊤ : EReal`.
  `MCTSplayer::selectbestchild` works with `double`s whose IEEE special
  values matter (`0.0/0 = NaN`, `x/0 = +∞` for `x > 0`, and `NaN`
  comparisons are always false), so its score is modelled by an explicit
  three-way type `DScore` with exact rational values.
* `std::default_random_engine` together with `std::shuffle` is modelled as an
  oracle stream `σ : ℕ → List ℕ` of shuffle outputs consumed one at a time,
  with a counter threaded through the search; a fixed seed fixes the stream.
* `std::sort` in `selectchild` is not stable; on ties among equal UCT values
  the element that ends up first is unspecified.  We model the sorted-first
  element as the first child attaining the maximal UCT value.
-/

/-- `board::piece_type`: the stone colors (plus the empty/unknown marker). -/
inductive Piece : Type where
  | black : Piece
  | white : Piece
  | empty : Piece
deriving DecidableEq, Repr

/-- The `if (p == board::black) p = white; else p = black;` pattern used for
the root in `take_action` and for children in `expansion`. -/
def Piece.flip : Piece → Piece
  | .black => .white
  | _ => .black

/-- Modelled from the spec (§2, §6): a board position, an external service.
It exposes the side to move and, for each legal `(position, color)` pair, the
successor position.  Finiteness of the game tree reflects that every NoGo
game ends (each move fills a point and strictly shrinks the legal set). -/
inductive SBoard : Type where
  | pos (turn : Piece) (moves : List (ℕ × Piece × SBoard))

/-- `board::info().who_take_turns`: the side to move. -/
def SBoard.turn : SBoard → Piece
  | .pos t _ => t

/-- The legal-move table of a position. -/
def SBoard.moves : SBoard → List (ℕ × Piece × SBoard)
  | .pos _ ms => ms

/-- Modelled from the spec (§6): `action::place(position, color).apply(board)`
— legality-checked application; `some b'` is `board::legal` with resulting
position `b'`, `none` is an illegal verdict (occupied / self-capture / out of
range), which leaves the board unchanged. -/
def SBoard.apply (b : SBoard) (p : ℕ) (c : Piece) : Option SBoard :=
  (b.moves.find? (fun m => m.1 == p && m.2.1 == c)).map (fun m => m.2.2)

/-- Modelled from the spec (§6): `board::place(position)` — attempts a move
for the side currently to move, mutating the board only if legal.  The
search code calls it and ignores the verdict, so this returns the updated
board when legal and the unchanged board otherwise. -/
def SBoard.placeB (b : SBoard) (p : ℕ) : SBoard :=
  (b.apply p b.turn).getD b

/-- The legal-move count of a position for its side to move, over the `N`
board points `0, …, N-1` (`N = board::size_x * board::size_y`).  This is the
counting loop of `Node::legal_count` run on an arbitrary board. -/
def legalCountB (N : ℕ) (b : SBoard) : ℕ :=
  ((List.range N).filter (fun i => (b.apply i b.turn).isSome)).length

/-- Modelled from the spec: the default-constructed `board` (`board state;`
in `Node`) — an empty position, black to move, on which every one of the `N`
points is a legal placement for black. The successor positions are irrelevant
to the agent code (which only ever counts legal moves on this board). -/
def defaultBoard (N : ℕ) : SBoard :=
  .pos .black ((List.range N).map (fun i => (i, Piece.black, SBoard.pos .black [])))

/-- `class Node` of `agent.h`: one search-tree node.  `parent` pointers are
represented implicitly (operations walk explicit child-index paths from the
root), `children` owns the subtrees.  `move` is `none` for the
default-constructed sentinel `action::place`. -/
inductive Node : Type where
  | mk (win games : ℕ) (state : SBoard) (move : Option (ℕ × Piece))
       (placer : Piece) (children : List Node)

/-- `Node::win`. -/
def Node.win : Node → ℕ
  | .mk w _ _ _ _ _ => w

/-- `Node::games`. -/
def Node.games : Node → ℕ
  | .mk _ g _ _ _ _ => g

/-- `Node::state` (the default-constructed board member). -/
def Node.state : Node → SBoard
  | .mk _ _ st _ _ _ => st

/-- `Node::move`. -/
def Node.move : Node → Option (ℕ × Piece)
  | .mk _ _ _ mv _ _ => mv

/-- `Node::placer`. -/
def Node.placer : Node → Piece
  | .mk _ _ _ _ pl _ => pl

/-- `Node::children`. -/
def Node.children : Node → List Node
  | .mk _ _ _ _ _ cs => cs

/-- `Node()` — the default constructor: `win = 0, games = 0`, default board,
sentinel move, `placer = board::black`, no children. -/
def Node.new (N : ℕ) : Node :=
  .mk 0 0 (defaultBoard N) none .black []

/-- `Node::isleaf()`: true iff `children` is empty. -/
def Node.isleaf (n : Node) : Bool :=
  n.children.length == 0

/-- `Node::legal_count()`: counts the legal placements — on the node's own
`state` member, for `state.info().who_take_turns`. -/
def Node.legal_count (N : ℕ) (n : Node) : ℕ :=
  legalCountB N n.state

/-- The root set-up at the top of `MCTSplayer::take_action`:
`Node *root = new Node(); if (root->placer == board::black) root->placer =
board::white; else root->placer = board::black;`.  Note that the branch
tests the freshly constructed node's `placer` (always `black`), not the
agent's color, so the root's `placer` does not depend on the agent. -/
def rootInit (N : ℕ) : Node :=
  match Node.new N with
  | .mk w g st mv pl cs => .mk w g st mv pl.flip cs

/-- The `double` score `(double)child->win / child->games` computed in
`MCTSplayer::selectbestchild`, keeping the IEEE special cases exact:
`0/0` is `NaN`, `w/0` with `w > 0` is `+∞`, otherwise the exact rational. -/
inductive DScore : Type where
  | nan : DScore
  | val (q : ℚ) : DScore
  | top : DScore
deriving DecidableEq

/-- The score of a child in `selectbestchild`. -/
def childScore (n : Node) : DScore :=
  if n.games = 0 then (if n.win = 0 then .nan else .top)
  else .val ((n.win : ℚ) / (n.games : ℚ))

/-- IEEE `>` on scores: `NaN` compares false on either side, `+∞` is above
every finite value and not above itself. -/
def dgt : DScore → DScore → Bool
  | .nan, _ => false
  | _, .nan => false
  | .top, .top => false
  | .top, .val _ => true
  | .val _, .top => false
  | .val q, .val m => decide (m < q)

/-- The loop body of `MCTSplayer::selectbestchild`: `score = (double)
child->win / child->games; if (score > max_score) {max_score = score;
best_child = child;}`. -/
def bestStep (acc : Node × DScore) (ch : Node) : Node × DScore :=
  if dgt (childScore ch) acc.2 then (ch, childScore ch) else acc

/-- `MCTSplayer::selectbestchild`: starting from `best_child = children[0]`
and `max_score = -1`, scan all children and keep the one whose win rate
strictly exceeds the running maximum; `nullptr` (here `none`) when the root
has no children. -/
def selectbestchild (root : Node) : Option Node :=
  match root.children with
  | [] => none
  | c :: cs => some ((c :: cs).foldl bestStep (c, DScore.val (-1))).1

/-- Applying a legal move leads to a structurally smaller position (the game
tree is finite), which is what terminates rollouts. -/
theorem SBoard.sizeOf_apply {b b' : SBoard} {p : ℕ} {c : Piece}
    (h : b.apply p c = some b') : sizeOf b' < sizeOf b := by
  cases b with
  | pos t ms =>
    simp only [SBoard.apply, SBoard.moves, Option.map_eq_some'] at h
    obtain ⟨m, hm, rfl⟩ := h
    have hmem := List.mem_of_find?_eq_some hm
    have h1 : sizeOf m < sizeOf ms := List.sizeOf_lt_of_mem hmem
    obtain ⟨p', c', b''⟩ := m
    simp at h1 ⊢
    omega

/-- The inner `for (i = 0; i < size_x*size_y; i++)` sweep of
`MCTSplayer::random_rollout`: try the shuffled positions `ps` in order for
the side to move (`after.info().who_take_turns`), returning the first legal
move together with the advanced board, or `none` when the whole sweep finds
no legal move (the loop exits with `i == size_x*size_y`). -/
def sweepFirst (b : SBoard) : List ℕ → Option ((ℕ × Piece) × SBoard)
  | [] => none
  | p :: ps =>
    match b.apply p b.turn with
    | some b' => some ((p, b.turn), b')
    | none => sweepFirst b ps

theorem sweepFirst_sizeOf {b b' : SBoard} {ps : List ℕ} {m : ℕ × Piece}
    (h : sweepFirst b ps = some (m, b')) : sizeOf b' < sizeOf b := by
  induction ps with
  | nil => simp [sweepFirst] at h
  | cons p ps ih =>
    rw [sweepFirst] at h
    cases happ : b.apply p b.turn with
    | none => rw [happ] at h; exact ih h
    | some b2 =>
      rw [happ] at h
      simp only [Option.some.injEq, Prod.mk.injEq] at h
      obtain ⟨-, rfl⟩ := h
      exact SBoard.sizeOf_apply happ

/-- `MCTSplayer::random_rollout`: `while (true)`, each pass sweeps the
shuffled position list `ps` (the code shuffles `iota(pos, 1)`, i.e. the
values `1, …, size_x*size_y`) and plays the first legal move found for the
side to move; the loop exits when a full sweep finds no legal move, and the
played moves are returned in order. -/
def random_rollout (b : SBoard) (ps : List ℕ) : List (ℕ × Piece) :=
  match h : sweepFirst b ps with
  | none => []
  | some (m, b') => m :: random_rollout b' ps
termination_by sizeOf b
decreasing_by exact sweepFirst_sizeOf h

/-- `MCTSplayer::rollout`: runs the random rollout only when
`node->legal_count() > 0` — a test made on the node's `state` member (the
default-constructed board), not on the current position `b`. -/
def rollout (N : ℕ) (ps : List ℕ) (b : SBoard) (n : Node) : List (ℕ × Piece) :=
  if 0 < n.legal_count N then random_rollout b ps else []

/-- `MCTSplayer::simulation`: the winner is the color of the last rollout
move when the rollout is non-empty, and otherwise the color stored in
`node->move` (the sentinel color for the root's default move); the result is
`1` when the winner equals the agent's configured color `who`, else `0`. -/
def simulation (who : Piece) (N : ℕ) (ps : List ℕ) (b : SBoard) (n : Node) : ℕ :=
  let plays := rollout N ps b n
  let winner : Piece :=
    match plays.getLast? with
    | some m => m.2
    | none => (n.move.getD (0, Piece.empty)).2
  if winner = who then 1 else 0

theorem simulation_le_one (who : Piece) (N : ℕ) (ps : List ℕ) (b : SBoard)
    (n : Node) : simulation who N ps b n ≤ 1 := by
  simp only [simulation]
  split <;> simp

/-- `Node::UCTvalue()` for a node with statistics `win`/`games` whose parent
has win count `parentWin`.  The function's return type is `float`; the
unvisited branch returns `DBL_MAX`, whose `double → float` conversion
overflows to `+∞`, modelled as `⊤ : EReal`.  The visited branch is
`win/games + sqrt(2) * sqrt(log(parent->win) / games)` — note the parent's
*win* count inside the logarithm. -/
noncomputable def UCTvalue (win games parentWin : ℕ) : EReal :=
  if games = 0 then ⊤
  else (((win : ℝ) / (games : ℝ)
        + Real.sqrt 2 * Real.sqrt (Real.log (parentWin : ℝ) / (games : ℝ)) : ℝ) : EReal)

open Classical in
/-- Index of the first element that is maximal among itself and everything
after it — the element `std::sort` (descending by UCT value) puts first, for
the stable tie-breaking the spec fixes (§4.2). -/
noncomputable def firstMaxIdx : List EReal → ℕ
  | [] => 0
  | x :: xs => if ∀ y ∈ xs, y ≤ x then 0 else firstMaxIdx xs + 1

theorem firstMaxIdx_lt : ∀ (l : List EReal), l ≠ [] → firstMaxIdx l < l.length := by
  intro l
  induction l with
  | nil => simp
  | cons x xs ih =>
    intro hne
    rw [firstMaxIdx]
    by_cases hall : ∀ y ∈ xs, y ≤ x
    · rw [if_pos hall]; simp
    · rw [if_neg hall]
      rcases xs with _ | ⟨y, ys⟩
      · exact absurd (by simp) hall
      · have h2 := ih (by simp)
        simp only [List.length_cons] at h2 ⊢
        omega

theorem getD_mem {α : Type} {l : List α} {d : α} (i : ℕ) (hd : d ∈ l) :
    l.getD i d ∈ l := by
  rcases Nat.lt_or_ge i l.length with h | h
  · rw [List.getD_eq_get l d h]
    exact List.get_mem l _ _
  · rw [List.getD_eq_default l d h]
    exact hd

theorem Node.sizeOf_lt_of_mem {c : Node} {w g : ℕ} {st : SBoard}
    {mv : Option (ℕ × Piece)} {pl : Piece} {cs : List Node} (h : c ∈ cs) :
    sizeOf c < sizeOf (Node.mk w g st mv pl cs) := by
  have := List.sizeOf_lt_of_mem h
  simp only [Node.mk.sizeOf_spec]
  omega

/-- `MCTSplayer::selection` together with the `selectchild` steps it makes:
starting at the root, while the node is not a leaf, sort the children by
`UCTvalue()` (computed against the current node's `win` as `parent->win`),
advance the board by `state.place(child->move.position())` for the first
child of the sorted order, and descend into it.  Returns the child-index
path, the reached frontier node, and the advanced board. -/
noncomputable def selection : SBoard → Node → List ℕ × Node × SBoard
  | b, .mk w g st mv pl [] => ([], .mk w g st mv pl [], b)
  | b, .mk w g st mv pl (c :: cs) =>
    let i := firstMaxIdx ((c :: cs).map (fun ch => UCTvalue ch.win ch.games w))
    let ch := (c :: cs).getD i c
    let r := selection (b.placeB ((ch.move.getD (0, Piece.empty)).1)) ch
    (i :: r.1, r.2)
termination_by _ n => sizeOf n
decreasing_by exact Node.sizeOf_lt_of_mem (getD_mem _ (List.mem_cons_self c cs))

/-- The children materialized by `MCTSplayer::expansion` at a node with
`placer` field `pl`, for the shuffled move list `sp` (positions of the
agent-colored `space` moves after `std::shuffle`): for each position whose
placement by the side to move is legal on a copy of the current board `b`, a
fresh node with the move `(p, who)` (the `space` entries all carry the
agent's color), `placer` the flip of `pl`, and zeroed statistics. -/
def expKids (N : ℕ) (who : Piece) (sp : List ℕ) (b : SBoard) (pl : Piece) : List Node :=
  sp.filterMap (fun p =>
    if (b.apply p b.turn).isSome then
      some (.mk 0 0 (defaultBoard N) (some (p, who)) pl.flip [])
    else none)

/-- `MCTSplayer::expansion`: append the materialized children to the node. -/
def expansion (N : ℕ) (who : Piece) (sp : List ℕ) (b : SBoard) : Node → Node
  | .mk w g st mv pl cs => .mk w g st mv pl (cs ++ expKids N who sp b pl)

/-- A placeholder node for out-of-range list indexing; every path the search
produces stays in range, so it is never actually selected. -/
def dummyNode : Node := .mk 0 0 (.pos .black []) none .black []

/-- Rebuild the tree after replacing the node at the end of the child-index
`path` by `f` of itself (the in-place pointer mutation of the C++ code). -/
def updateAt : Node → List ℕ → (Node → Node) → Node
  | n, [], f => f n
  | .mk w g st mv pl cs, i :: p, f =>
      .mk w g st mv pl (cs.set i (updateAt (cs.getD i dummyNode) p f))

/-- `MCTSplayer::backpropagation`: in the C++ code this walks from the
simulated node up the `parent` chain to the root, doing `games++` and
`win += w` at every node.  Here the same set of nodes — the selected node
and all its ancestors including the root — is updated by walking the
child-index `path` downward from the root. -/
def backpropagation (w : ℕ) : Node → List ℕ → Node
  | .mk win g st mv pl cs, [] => .mk (win + w) (g + 1) st mv pl cs
  | .mk win g st mv pl cs, i :: p =>
      .mk (win + w) (g + 1) st mv pl (cs.set i (backpropagation w (cs.getD i dummyNode) p))

/-- `current_node->move.apply(current_board)` after an expansion: the
legality-checked application of the node's stored move (mutating only if
legal); a no-op for the root's sentinel move. -/
def reapply (mv : Option (ℕ × Piece)) (b : SBoard) : SBoard :=
  match mv with
  | some (p, c) => (b.apply p c).getD b
  | none => b

/-- One iteration of the loop in `MCTSplayer::take_action`: selection from a
fresh copy of the input board; if the reached node has `games == 0`,
expansion there (consuming one shuffle draw) followed by the re-application
of the node's own move to the board (a no-op for the root's sentinel move
and for an already-applied child move); then simulation (whose rollout
consumes one shuffle draw exactly when `legal_count() > 0`); then
backpropagation of the 0/1 outcome along the path.  The second component is
the RNG draw counter. -/
noncomputable def iterOnce (N : ℕ) (who : Piece) (σ : ℕ → List ℕ) (state : SBoard)
    (rc : Node × ℕ) : Node × ℕ :=
  let s := selection state rc.1
  let path := s.1
  let cur := s.2.1
  let b1 := s.2.2
  if cur.games = 0 then
    let root2 := updateAt rc.1 path (expansion N who (σ rc.2) b1)
    let w := simulation who N (σ (rc.2 + 1)) (reapply cur.move b1) cur
    (backpropagation w root2 path, rc.2 + 1 + (if 0 < cur.legal_count N then 1 else 0))
  else
    let w := simulation who N (σ rc.2) b1 cur
    (backpropagation w rc.1 path, rc.2 + (if 0 < cur.legal_count N then 1 else 0))

/-- The `for (int i = 0; i < simulation_time; i++)` loop of
`MCTSplayer::take_action`: `k` iterations from the fresh root. -/
noncomputable def searchLoop (N : ℕ) (who : Piece) (σ : ℕ → List ℕ) (state : SBoard) :
    ℕ → Node × ℕ
  | 0 => (rootInit N, 0)
  | k + 1 => iterOnce N who σ state (searchLoop N who σ state k)

/-- `MCTSplayer::take_action` for an agent of color `who` with iteration
budget `T` (`simulation_time`) and RNG stream `σ`, on input board `state`:
run the search loop, then return `selectbestchild(root)->move`, or the
default `action()` sentinel (here `none`) when the root has no children. -/
noncomputable def take_action (N : ℕ) (who : Piece) (T : ℕ) (σ : ℕ → List ℕ)
    (state : SBoard) : Option (ℕ × Piece) :=
  match selectbestchild (searchLoop N who σ state T).1 with
  | some best => best.move
  | none => none

/-- `P` holds at every node of the tree. -/
inductive Node.All (P : Node → Prop) : Node → Prop
  | intro {w g : ℕ} {st : SBoard} {mv : Option (ℕ × Piece)} {pl : Piece}
      {cs : List Node} :
      P (.mk w g st mv pl cs) → (∀ c ∈ cs, Node.All P c) →
      Node.All P (.mk w g st mv pl cs)

theorem dgt_val_val (q m : ℚ) : dgt (.val q) (.val m) = decide (m < q) := rfl

/-- The running best of `selectbestchild`'s scan: starting from a candidate
`b` whose win rate is at least the running maximum `q`, the scan returns `b`
or a scanned child, and its win rate dominates the rate of every scanned
child. -/
theorem bestStep_foldl (l : List Node) :
    ∀ (b : Node) (q : ℚ), (∀ c ∈ l, 0 < c.games) →
      q ≤ (b.win : ℚ) / (b.games : ℚ) →
      ((l.foldl bestStep (b, .val q)).1 = b ∨ (l.foldl bestStep (b, .val q)).1 ∈ l) ∧
      ∃ q2, (l.foldl bestStep (b, .val q)).2 = .val q2 ∧ q ≤ q2 ∧
        q2 ≤ ((l.foldl bestStep (b, .val q)).1.win : ℚ)
              / ((l.foldl bestStep (b, .val q)).1.games : ℚ) ∧
        ∀ c ∈ l, (c.win : ℚ) / (c.games : ℚ) ≤ q2 := by
  induction l with
  | nil =>
    intro b q _ hq
    exact ⟨Or.inl rfl, q, rfl, le_refl q, hq, by simp⟩
  | cons c l ih =>
    intro b q hl hq
    have hc : 0 < c.games := hl c (List.mem_cons_self c l)
    have hcs : childScore c = .val ((c.win : ℚ) / (c.games : ℚ)) := by
      simp [childScore, Nat.pos_iff_ne_zero.mp hc]
    rw [List.foldl_cons]
    have hstep : bestStep (b, .val q) c =
        if dgt (childScore c) (DScore.val q) = true then (c, childScore c) else (b, .val q) := rfl
    rw [hstep, hcs, dgt_val_val]
    by_cases hlt : q < (c.win : ℚ) / (c.games : ℚ)
    · rw [if_pos (by simp [hlt])]
      obtain ⟨hmem, q2, heq, hle, hdom, hall⟩ :=
        ih c ((c.win : ℚ) / (c.games : ℚ)) (fun x hx => hl x (List.mem_cons_of_mem c hx))
          (le_refl _)
      refine ⟨?_, q2, heq, le_of_lt (lt_of_lt_of_le hlt hle), hdom, ?_⟩
      · rcases hmem with h | h
        · exact Or.inr (by rw [h]; exact List.mem_cons_self c l)
        · exact Or.inr (List.mem_cons_of_mem c h)
      · intro x hx
        rcases List.mem_cons.mp hx with rfl | hx
        · exact hle
        · exact hall x hx
    · rw [if_neg (by simp [hlt])]
      obtain ⟨hmem, q2, heq, hle, hdom, hall⟩ :=
        ih b q (fun x hx => hl x (List.mem_cons_of_mem c hx)) hq
      refine ⟨?_, q2, heq, hle, hdom, ?_⟩
      · rcases hmem with h | h
        · exact Or.inl h
        · exact Or.inr (List.mem_cons_of_mem c h)
      · intro x hx
        rcases List.mem_cons.mp hx with rfl | hx
        · exact le_trans (le_of_not_lt hlt) hle
        · exact hall x hx

/-- C1 (amended): when every child of the root has been visited at least
once, `selectbestchild` — whose move `take_action` returns — picks a child
of the root that maximizes the win rate `win/games` (not the visit count):
the code computes `score = (double)child->win / child->games` and keeps the
strict maximum. -/
theorem C1_best_child_max_winrate (root best : Node)
    (hbest : selectbestchild root = some best)
    (hpos : ∀ c ∈ root.children, 0 < c.games) :
    best ∈ root.children ∧
      ∀ c ∈ root.children, (c.win : ℚ) / (c.games : ℚ) ≤ (best.win : ℚ) / (best.games : ℚ) := by
  rcases hch : root.children with _ | ⟨c, cs⟩
  · rw [selectbestchild, hch] at hbest
    exact absurd hbest (by simp)
  · rw [selectbestchild, hch] at hbest
    simp only [Option.some.injEq] at hbest
    rw [hch] at hpos
    have hc : 0 < c.games := hpos c (List.mem_cons_self c cs)
    have hneg1 : (-1 : ℚ) ≤ (c.win : ℚ) / (c.games : ℚ) :=
      le_trans (by norm_num) (div_nonneg (by positivity) (by positivity))
    obtain ⟨hmem, q2, heq, hle, hdom, hall⟩ := bestStep_foldl (c :: cs) c (-1) hpos hneg1
    rw [hbest] at hmem hdom
    constructor
    · rcases hmem with h | h
      · rw [h]; exact List.mem_cons_self c cs
      · exact h
    · intro x hx
      exact le_trans (hall x hx) hdom

/-- A root child with 1 win in 10 visits (win rate 1/10): the most-visited
(robust) child of `cRoot`. -/
def cA : Node := .mk 1 10 (defaultBoard 1) (some (0, .black)) .black []

/-- A root child with 2 wins in 2 visits (win rate 1): fewer visits but the
higher win rate. -/
def cB : Node := .mk 2 2 (defaultBoard 1) (some (1, .black)) .black []

/-- A root holding the two children above. -/
def cRoot : Node := .mk 3 12 (defaultBoard 1) none .white [cA, cB]

/-- C1 counterexample: on `cRoot`, `selectbestchild` returns `cB` (win rate
1) even though its sibling `cA` has strictly more visits (10 vs 2) — so the
final selection is NOT the child maximizing the visit count, refuting the
claim at this input. -/
theorem C1_counterexample :
    selectbestchild cRoot = some cB ∧ cA ∈ cRoot.children ∧ cB.games < cA.games := by
  refine ⟨?_, by simp [cRoot, Node.children], by norm_num [cA, cB, Node.games]⟩
  norm_num [selectbestchild, cRoot, cA, cB, Node.children, bestStep, childScore, dgt,
    Node.games, Node.win, decide_eq_true_eq]

/-- A visited root child with win rate 1/2. -/
def wA : Node := .mk 1 2 (defaultBoard 1) (some (0, .black)) .black []

/-- A visited root child with win rate 1. -/
def wB : Node := .mk 1 1 (defaultBoard 1) (some (1, .black)) .black []

/-- A root whose children are all visited. -/
def wRoot : Node := .mk 2 3 (defaultBoard 1) none .white [wA, wB]

/-- Witness for `C1_best_child_max_winrate` at the concrete root `wRoot`. -/
theorem C1_witness :
    selectbestchild wRoot = some wB ∧ (∀ c ∈ wRoot.children, 0 < c.games) ∧
      (wB ∈ wRoot.children ∧
        ∀ c ∈ wRoot.children,
          (c.win : ℚ) / (c.games : ℚ) ≤ (wB.win : ℚ) / (wB.games : ℚ)) := by
  have hsel : selectbestchild wRoot = some wB := by
    norm_num [selectbestchild, wRoot, wA, wB, Node.children, bestStep, childScore, dgt,
      Node.games, Node.win, decide_eq_true_eq]
  have hpos : ∀ c ∈ wRoot.children, 0 < c.games := by decide
  exact ⟨hsel, hpos, C1_best_child_max_winrate wRoot wB hsel hpos⟩

/-- C3: the selection score `Node::UCTvalue` is `+∞` when the node's visit
count is `0` (the returned `DBL_MAX` overflows the `float` return type to
`+∞`), and otherwise equals `win/games + c·sqrt(ln(parent->win)/games)`
with `c = sqrt 2` — the logarithm's argument being the parent's *win*
count. -/
theorem C3_selection_score (win games parentWin : ℕ) :
    (games = 0 → UCTvalue win games parentWin = ⊤) ∧
    (games ≠ 0 → UCTvalue win games parentWin =
      (((win : ℝ) / (games : ℝ)
        + Real.sqrt 2 * Real.sqrt (Real.log (parentWin : ℝ) / (games : ℝ)) : ℝ) : EReal)) :=
  ⟨fun h => by simp [UCTvalue, h], fun h => by simp [UCTvalue, h]⟩

/-- Witness for `C3_selection_score` at concrete statistics. -/
theorem C3_witness :
    ((0 : ℕ) = 0 ∧ UCTvalue 3 0 5 = ⊤) ∧
    ((2 : ℕ) ≠ 0 ∧ UCTvalue 1 2 5 =
      ((((1 : ℕ) : ℝ) / ((2 : ℕ) : ℝ)
        + Real.sqrt 2 * Real.sqrt (Real.log ((5 : ℕ) : ℝ) / ((2 : ℕ) : ℝ)) : ℝ) : EReal)) :=
  ⟨⟨rfl, (C3_selection_score 3 0 5).1 rfl⟩,
   ⟨by decide, (C3_selection_score 1 2 5).2 (by decide)⟩⟩

/-- C4 counterexample: for a *white* agent the claim demands the fresh
root's `placer` be black (the opponent), but the root set-up in
`take_action` flips the default-constructed `placer` (always black) without
consulting the agent's color, so the root's `placer` is white. -/
theorem C4_counterexample :
    (searchLoop 1 Piece.white (fun _ => []) (SBoard.pos .white []) 0).1.placer
      = Piece.white ∧ Piece.white ≠ Piece.black :=
  ⟨rfl, by decide⟩

/-- C4 (amended): at the start of every `take_action` call the freshly
created root has no move and zero visits, and its `placer` is always white —
which is the opponent of the agent's color only when the agent plays
black. -/
theorem C4_root_fields (N : ℕ) (who : Piece) (σ : ℕ → List ℕ) (b : SBoard) :
    (searchLoop N who σ b 0).1.move = none ∧
    (searchLoop N who σ b 0).1.games = 0 ∧
    (searchLoop N who σ b 0).1.placer = Piece.white :=
  ⟨rfl, rfl, rfl⟩

theorem getD_set_self {α : Type} {l : List α} {i : ℕ} (a d : α) (h : i < l.length) :
    (l.set i a).getD i d = a := by
  rw [List.getD_eq_getElem (l.set i a) d (by simpa using h)]
  exact List.getElem_set_self _

theorem getD_mem_of_lt {α : Type} {l : List α} {i : ℕ} (d : α) (h : i < l.length) :
    l.getD i d ∈ l := by
  rw [List.getD_eq_getElem l d h]
  exact List.getElem_mem _

theorem selection_nil (b : SBoard) (w g : ℕ) (st : SBoard) (mv : Option (ℕ × Piece))
    (pl : Piece) : selection b (.mk w g st mv pl []) = ([], .mk w g st mv pl [], b) := by
  rw [selection]

/-- On a node with children, selection emits a first path index that is in
range of the children list. -/
theorem selection_cons_path (b : SBoard) (w g : ℕ) (st : SBoard)
    (mv : Option (ℕ × Piece)) (pl : Piece) (c : Node) (cs : List Node) :
    ∃ i p2, (selection b (.mk w g st mv pl (c :: cs))).1 = i :: p2 ∧
      i < (c :: cs).length := by
  rw [selection]
  refine ⟨_, _, rfl, ?_⟩
  have := firstMaxIdx_lt ((c :: cs).map fun ch => UCTvalue ch.win ch.games w) (by simp)
  simpa using this

theorem backpropagation_games (w : ℕ) (n : Node) (p : List ℕ) :
    (backpropagation w n p).games = n.games + 1 := by
  cases n <;> cases p <;> rfl

theorem backpropagation_win (w : ℕ) (n : Node) (p : List ℕ) :
    (backpropagation w n p).win = n.win + w := by
  cases n <;> cases p <;> rfl

theorem backpropagation_state (w : ℕ) (n : Node) (p : List ℕ) :
    (backpropagation w n p).state = n.state := by
  cases n <;> cases p <;> rfl

theorem backpropagation_move (w : ℕ) (n : Node) (p : List ℕ) :
    (backpropagation w n p).move = n.move := by
  cases n <;> cases p <;> rfl

theorem backpropagation_placer (w : ℕ) (n : Node) (p : List ℕ) :
    (backpropagation w n p).placer = n.placer := by
  cases n <;> cases p <;> rfl

theorem backpropagation_children_nil (w : ℕ) (n : Node) :
    (backpropagation w n []).children = n.children := by
  cases n; rfl

theorem backpropagation_children_cons (w : ℕ) (n : Node) (i : ℕ) (p : List ℕ) :
    (backpropagation w n (i :: p)).children =
      n.children.set i (backpropagation w (n.children.getD i dummyNode) p) := by
  cases n; rfl

theorem expansion_win (N : ℕ) (who : Piece) (sp : List ℕ) (b : SBoard) (n : Node) :
    (expansion N who sp b n).win = n.win := by cases n; rfl

theorem expansion_games (N : ℕ) (who : Piece) (sp : List ℕ) (b : SBoard) (n : Node) :
    (expansion N who sp b n).games = n.games := by cases n; rfl

theorem expansion_state (N : ℕ) (who : Piece) (sp : List ℕ) (b : SBoard) (n : Node) :
    (expansion N who sp b n).state = n.state := by cases n; rfl

theorem expansion_move (N : ℕ) (who : Piece) (sp : List ℕ) (b : SBoard) (n : Node) :
    (expansion N who sp b n).move = n.move := by cases n; rfl

theorem expansion_placer (N : ℕ) (who : Piece) (sp : List ℕ) (b : SBoard) (n : Node) :
    (expansion N who sp b n).placer = n.placer := by cases n; rfl

theorem expansion_children (N : ℕ) (who : Piece) (sp : List ℕ) (b : SBoard) (n : Node) :
    (expansion N who sp b n).children = n.children ++ expKids N who sp b n.placer := by
  cases n; rfl

theorem updateAt_children_cons (n : Node) (i : ℕ) (p : List ℕ) (f : Node → Node) :
    (updateAt n (i :: p) f).children =
      n.children.set i (updateAt (n.children.getD i dummyNode) p f) := by
  cases n; rfl

theorem updateAt_nil (n : Node) (f : Node → Node) : updateAt n [] f = f n := by
  cases n; rfl

theorem updateAt_win (p : List ℕ) (f : Node → Node) (hf : ∀ m, (f m).win = m.win)
    (n : Node) : (updateAt n p f).win = n.win := by
  cases p with
  | nil => rw [updateAt_nil]; exact hf n
  | cons i q => cases n; rfl

theorem updateAt_games (p : List ℕ) (f : Node → Node) (hf : ∀ m, (f m).games = m.games)
    (n : Node) : (updateAt n p f).games = n.games := by
  cases p with
  | nil => rw [updateAt_nil]; exact hf n
  | cons i q => cases n; rfl

theorem updateAt_state (p : List ℕ) (f : Node → Node) (hf : ∀ m, (f m).state = m.state)
    (n : Node) : (updateAt n p f).state = n.state := by
  cases p with
  | nil => rw [updateAt_nil]; exact hf n
  | cons i q => cases n; rfl

theorem updateAt_move (p : List ℕ) (f : Node → Node) (hf : ∀ m, (f m).move = m.move)
    (n : Node) : (updateAt n p f).move = n.move := by
  cases p with
  | nil => rw [updateAt_nil]; exact hf n
  | cons i q => cases n; rfl

theorem updateAt_placer (p : List ℕ) (f : Node → Node) (hf : ∀ m, (f m).placer = m.placer)
    (n : Node) : (updateAt n p f).placer = n.placer := by
  cases p with
  | nil => rw [updateAt_nil]; exact hf n
  | cons i q => cases n; rfl

/-- The first iteration on a fresh leaf root: selection stays at the root,
expansion materializes the legal children of the input position, and
backpropagation updates the root alone. -/
theorem iterOnce_fresh (N : ℕ) (who : Piece) (σ : ℕ → List ℕ) (state : SBoard)
    (ctr : ℕ) (w0 : ℕ) (st : SBoard) (mv : Option (ℕ × Piece)) (pl : Piece) :
    ∃ w2 ≤ 1, (iterOnce N who σ state (.mk w0 0 st mv pl [], ctr)).1 =
        .mk (w0 + w2) 1 st mv pl (expKids N who (σ ctr) state pl) := by
  refine ⟨simulation who N (σ (ctr + 1)) (reapply mv state) (Node.mk w0 0 st mv pl []),
    simulation_le_one _ _ _ _ _, ?_⟩
  simp only [iterOnce, selection_nil, Node.games, Node.move, updateAt_nil, expansion,
    backpropagation]
  simp

theorem backpropagation_eq (w : ℕ) (n : Node) (p : List ℕ) :
    backpropagation w n p = .mk (n.win + w) (n.games + 1) n.state n.move n.placer
      (match p with
       | [] => n.children
       | i :: q => n.children.set i (backpropagation w (n.children.getD i dummyNode) q)) := by
  cases n <;> cases p <;> rfl

theorem updateAt_cons_eq (n : Node) (i : ℕ) (p : List ℕ) (f : Node → Node) :
    updateAt n (i :: p) f = .mk n.win n.games n.state n.move n.placer
      (n.children.set i (updateAt (n.children.getD i dummyNode) p f)) := by
  cases n; rfl

/-- Any iteration on a root that has already been visited (`games ≠ 0`):
the root gains one visit, its other fields are unchanged, and its children
list is unchanged except that — when the root has children — exactly one
child (the one selection descended into) gains one visit, keeping its
move. -/
theorem iterOnce_steady (N : ℕ) (who : Piece) (σ : ℕ → List ℕ) (state : SBoard)
    (ctr : ℕ) (w0 g : ℕ) (st : SBoard) (mv : Option (ℕ × Piece)) (pl : Piece)
    (cs : List Node) (hg : g ≠ 0) :
    ∃ w2 cs2, w2 ≤ 1 ∧
      (iterOnce N who σ state (.mk w0 g st mv pl cs, ctr)).1 =
        .mk (w0 + w2) (g + 1) st mv pl cs2 ∧
      ((cs = [] ∧ cs2 = []) ∨
        (∃ i x, i < cs.length ∧ cs2 = cs.set i x ∧
          x.games = (cs.getD i dummyNode).games + 1 ∧
          x.move = (cs.getD i dummyNode).move)) := by
  cases cs with
  | nil =>
    refine ⟨simulation who N (σ ctr) state (Node.mk w0 g st mv pl []), [],
      simulation_le_one _ _ _ _ _, ?_, Or.inl ⟨rfl, rfl⟩⟩
    simp only [iterOnce, selection_nil, Node.games]
    rw [if_neg hg]
    simp only [backpropagation]
  | cons c cs2 =>
    obtain ⟨i, p2, hs, hi⟩ := selection_cons_path state w0 g st mv pl c cs2
    set s := selection state (Node.mk w0 g st mv pl (c :: cs2)) with hsdef
    by_cases hcur : s.2.1.games = 0
    · have hres : (iterOnce N who σ state (Node.mk w0 g st mv pl (c :: cs2), ctr)).1 =
          Node.mk (w0 + simulation who N (σ (ctr + 1)) (reapply s.2.1.move s.2.2) s.2.1)
            (g + 1) st mv pl
            ((c :: cs2).set i (backpropagation
              (simulation who N (σ (ctr + 1)) (reapply s.2.1.move s.2.2) s.2.1)
              (updateAt ((c :: cs2).getD i dummyNode) p2 (expansion N who (σ ctr) s.2.2))
              p2)) := by
        simp only [iterOnce, ← hsdef]
        rw [if_pos hcur, hs, updateAt_cons_eq, backpropagation_eq]
        simp only [Node.win, Node.games, Node.state, Node.move, Node.placer, Node.children,
          List.set_set]
        rw [getD_set_self _ _ (by simpa using hi)]
      refine ⟨_, _, simulation_le_one _ _ _ _ _, hres, Or.inr ⟨i, _, hi, rfl, ?_, ?_⟩⟩
      · rw [backpropagation_games, updateAt_games _ _ (expansion_games N who (σ ctr) s.2.2)]
      · rw [backpropagation_move, updateAt_move _ _ (expansion_move N who (σ ctr) s.2.2)]
    · have hres : (iterOnce N who σ state (Node.mk w0 g st mv pl (c :: cs2), ctr)).1 =
          Node.mk (w0 + simulation who N (σ ctr) s.2.2 s.2.1) (g + 1) st mv pl
            ((c :: cs2).set i (backpropagation (simulation who N (σ ctr) s.2.2 s.2.1)
              ((c :: cs2).getD i dummyNode) p2)) := by
        simp only [iterOnce, ← hsdef]
        rw [if_neg hcur, hs, backpropagation_eq]
        simp only [Node.win, Node.games, Node.state, Node.move, Node.placer, Node.children]
      refine ⟨_, _, simulation_le_one _ _ _ _ _, hres, Or.inr ⟨i, _, hi, rfl, ?_, ?_⟩⟩
      · rw [backpropagation_games]
      · rw [backpropagation_move]

theorem Node.eta (n : Node) :
    n = .mk n.win n.games n.state n.move n.placer n.children := by
  cases n; rfl

theorem map_move_set (l : List Node) (i : ℕ) (x : Node) (hi : i < l.length)
    (hx : x.move = (l.getD i dummyNode).move) :
    (l.set i x).map Node.move = l.map Node.move := by
  induction l generalizing i with
  | nil => simp at hi
  | cons c cs ih =>
    cases i with
    | zero =>
      simp only [List.getD_cons_zero] at hx
      simp [List.set, hx]
    | succ j =>
      simp only [List.getD_cons_succ] at hx
      simp only [List.set, List.map_cons, List.cons.injEq, true_and]
      exact ih j (by simpa using hi) hx

theorem sum_map_games_set (l : List Node) (i : ℕ) (x : Node) (hi : i < l.length)
    (hx : x.games = (l.getD i dummyNode).games + 1) :
    ((l.set i x).map Node.games).sum = (l.map Node.games).sum + 1 := by
  induction l generalizing i with
  | nil => simp at hi
  | cons c cs ih =>
    cases i with
    | zero =>
      simp only [List.getD_cons_zero] at hx
      simp [List.set, hx]
      omega
    | succ j =>
      simp only [List.getD_cons_succ] at hx
      have := ih j (by simpa using hi) hx
      simp only [List.set, List.map_cons, List.sum_cons, this]
      omega

/-- Every expansion child carries zeroed statistics, the default board, a
move of the agent's color at a position that is legal on the expanded
board for its side to move, and the flipped `placer`. -/
theorem expKids_mem {N : ℕ} {who : Piece} {sp : List ℕ} {b : SBoard} {pl : Piece}
    {x : Node} (hx : x ∈ expKids N who sp b pl) :
    x.games = 0 ∧ x.win = 0 ∧ x.children = [] ∧ x.state = defaultBoard N ∧
      x.placer = pl.flip ∧
      ∃ p, p ∈ sp ∧ (b.apply p b.turn).isSome = true ∧ x.move = some (p, who) := by
  simp only [expKids, List.mem_filterMap] at hx
  obtain ⟨p, hp, hif⟩ := hx
  by_cases h : (b.apply p b.turn).isSome
  · rw [if_pos h] at hif
    obtain rfl := Option.some.inj hif
    exact ⟨rfl, rfl, rfl, rfl, rfl, p, hp, h, rfl⟩
  · rw [if_neg h] at hif
    exact absurd hif (by simp)

theorem expKids_length (N : ℕ) (who : Piece) (sp : List ℕ) (b : SBoard) (pl : Piece) :
    (expKids N who sp b pl).length =
      (sp.filter (fun p => (b.apply p b.turn).isSome)).length := by
  induction sp with
  | nil => rfl
  | cons p ps ih =>
    simp only [expKids, List.filterMap_cons, List.filter_cons] at ih ⊢
    by_cases h : (b.apply p b.turn).isSome
    · rw [if_pos h, if_pos h]
      simp only [List.length_cons]
      rw [ih]
    · rw [if_neg h, if_neg h]
      exact ih

theorem expKids_sum_games (N : ℕ) (who : Piece) (sp : List ℕ) (b : SBoard) (pl : Piece) :
    ((expKids N who sp b pl).map Node.games).sum = 0 := by
  apply List.sum_eq_zero
  intro g hg
  simp only [List.mem_map] at hg
  obtain ⟨x, hx, rfl⟩ := hg
  exact (expKids_mem hx).1

/-- Root-level facts after `k` iterations of the search loop: the root's
visit count equals `k`, its other fields stay those of the fresh root, its
children are created once — by the first iteration's expansion of the input
board — and keep their moves, and the children's visit counts sum to less
than `k`. -/
theorem searchLoop_facts (N : ℕ) (who : Piece) (σ : ℕ → List ℕ) (b : SBoard) :
    ∀ k, (searchLoop N who σ b k).1.games = k ∧
      (searchLoop N who σ b k).1.move = none ∧
      (searchLoop N who σ b k).1.state = defaultBoard N ∧
      (searchLoop N who σ b k).1.placer = Piece.white ∧
      (k = 0 → (searchLoop N who σ b k).1.children = []) ∧
      (1 ≤ k →
        ((searchLoop N who σ b k).1.children.map Node.move =
          (expKids N who (σ 0) b Piece.white).map Node.move) ∧
        ((searchLoop N who σ b k).1.children.map Node.games).sum + 1 ≤ k) := by
  intro k
  induction k with
  | zero => exact ⟨rfl, rfl, rfl, rfl, fun _ => rfl, fun h => absurd h (by simp)⟩
  | succ k ih =>
    obtain ⟨hg, hmv, hst, hpl, hch0, hch⟩ := ih
    have hpair : searchLoop N who σ b (k + 1) =
        iterOnce N who σ b (searchLoop N who σ b k) := rfl
    rcases Nat.eq_zero_or_pos k with rfl | hk
    · have hr : (searchLoop N who σ b 0).1 =
          Node.mk (searchLoop N who σ b 0).1.win 0 (defaultBoard N) none Piece.white [] := by
        conv_lhs => rw [Node.eta ((searchLoop N who σ b 0).1)]
        rw [hg, hmv, hst, hpl, hch0 rfl]
      obtain ⟨w2, hw2, hres⟩ := iterOnce_fresh N who σ b (searchLoop N who σ b 0).2
        (searchLoop N who σ b 0).1.win (defaultBoard N) none Piece.white
      have hctr : (searchLoop N who σ b 0).2 = 0 := rfl
      rw [hctr] at hres
      have hstep : (searchLoop N who σ b 1).1 =
          Node.mk ((searchLoop N who σ b 0).1.win + w2) 1 (defaultBoard N) none Piece.white
            (expKids N who (σ 0) b Piece.white) := by
        rw [hpair, show searchLoop N who σ b 0 =
          ((searchLoop N who σ b 0).1, (searchLoop N who σ b 0).2) from rfl, hr, hctr]
        exact hres
      refine ⟨by rw [hstep]; rfl, by rw [hstep]; rfl, by rw [hstep]; rfl, by rw [hstep]; rfl,
        by simp, fun _ => ⟨by rw [hstep]; rfl, ?_⟩⟩
      have hone : searchLoop N who σ b (0 + 1) = searchLoop N who σ b 1 := rfl
      have hsum0 : ((searchLoop N who σ b (0 + 1)).1.children.map Node.games).sum = 0 := by
        rw [hone, hstep]
        exact expKids_sum_games N who (σ 0) b Piece.white
      omega
    · have hkne : k ≠ 0 := Nat.pos_iff_ne_zero.mp hk
      have hr : (searchLoop N who σ b k).1 =
          Node.mk (searchLoop N who σ b k).1.win k (defaultBoard N) none Piece.white
            (searchLoop N who σ b k).1.children := by
        conv_lhs => rw [Node.eta ((searchLoop N who σ b k).1)]
        rw [hg, hmv, hst, hpl]
      obtain ⟨w2, cs2, hw2, hres, hcases⟩ := iterOnce_steady N who σ b
        (searchLoop N who σ b k).2 (searchLoop N who σ b k).1.win k (defaultBoard N) none
        Piece.white (searchLoop N who σ b k).1.children hkne
      have hstep : (searchLoop N who σ b (k + 1)).1 =
          Node.mk ((searchLoop N who σ b k).1.win + w2) (k + 1) (defaultBoard N) none
            Piece.white cs2 := by
        rw [hpair, show searchLoop N who σ b k =
          ((searchLoop N who σ b k).1, (searchLoop N who σ b k).2) from rfl, hr]
        exact hres
      obtain ⟨hmm, hsum⟩ := hch hk
      refine ⟨by rw [hstep]; rfl, by rw [hstep]; rfl, by rw [hstep]; rfl, by rw [hstep]; rfl,
        by simp, fun _ => ⟨?_, ?_⟩⟩
      · rw [hstep]
        show cs2.map Node.move = _
        rcases hcases with ⟨hnil, rfl⟩ | ⟨i, x, hi, rfl, hxg, hxm⟩
        · rw [hnil] at hmm
          simpa [hnil] using hmm
        · rw [map_move_set _ i x hi hxm]
          exact hmm
      · rw [hstep]
        show (cs2.map Node.games).sum + 1 ≤ k + 1
        rcases hcases with ⟨hnil, rfl⟩ | ⟨i, x, hi, rfl, hxg, hxm⟩
        · simp
        · rw [sum_map_games_set _ i x hi hxg]
          omega

/-- C8: after `k ≥ 1` search iterations from a fresh root on a position with
`m` legal first moves (`m = legalCountB N b`, counted for the side to move),
the root has exactly `m` children, each child has a non-negative visit
count, and the children's visit counts sum to at most `k`. -/
theorem C8_tree_shape (N k : ℕ) (who : Piece) (σ : ℕ → List ℕ) (b : SBoard)
    (hk : 1 ≤ k) (hperm : (σ 0).Perm (List.range N)) :
    (searchLoop N who σ b k).1.children.length = legalCountB N b ∧
    (∀ c ∈ (searchLoop N who σ b k).1.children, 0 ≤ c.games) ∧
    ((searchLoop N who σ b k).1.children.map Node.games).sum ≤ k := by
  obtain ⟨hg, hmv, hst, hpl, hch0, hch⟩ := searchLoop_facts N who σ b k
  obtain ⟨hmm, hsum⟩ := hch hk
  refine ⟨?_, fun c _ => Nat.zero_le _, by omega⟩
  have hlen : (searchLoop N who σ b k).1.children.length =
      (expKids N who (σ 0) b Piece.white).length := by
    have h2 := congrArg List.length hmm
    simpa using h2
  rw [hlen, expKids_length, legalCountB]
  exact (hperm.filter (fun p => (b.apply p b.turn).isSome)).length_eq

/-- A one-point board on which the single position 0 is a legal placement
for black, the side to move. -/
def bOne : SBoard := .pos .black [(0, .black, .pos .white [])]

/-- Witness for `C8_tree_shape` at a concrete one-point position. -/
theorem C8_witness :
    1 ≤ 1 ∧ ([0] : List ℕ).Perm (List.range 1) ∧
      ((searchLoop 1 Piece.black (fun _ => [0]) bOne 1).1.children.length =
          legalCountB 1 bOne ∧
        (∀ c ∈ (searchLoop 1 Piece.black (fun _ => [0]) bOne 1).1.children, 0 ≤ c.games) ∧
        ((searchLoop 1 Piece.black (fun _ => [0]) bOne 1).1.children.map Node.games).sum ≤ 1) := by
  have h1 : (1 : ℕ) ≤ 1 := by decide
  have h2 : ([0] : List ℕ).Perm (List.range 1) := by decide
  exact ⟨h1, h2, C8_tree_shape 1 1 Piece.black (fun _ => [0]) bOne h1 h2⟩

theorem bestStep_foldl_mem (l : List Node) :
    ∀ (bn : Node) (s : DScore),
      ((l.foldl bestStep (bn, s)).1 = bn ∨ (l.foldl bestStep (bn, s)).1 ∈ l) := by
  induction l with
  | nil => intro bn s; exact Or.inl rfl
  | cons c cs ih =>
    intro bn s
    rw [List.foldl_cons,
      show bestStep (bn, s) c =
        if dgt (childScore c) s then (c, childScore c) else (bn, s) from rfl]
    split
    · rcases ih c (childScore c) with h | h
      · exact Or.inr (by rw [h]; exact List.mem_cons_self c cs)
      · exact Or.inr (List.mem_cons_of_mem c h)
    · rcases ih bn s with h | h
      · exact Or.inl h
      · exact Or.inr (List.mem_cons_of_mem c h)

theorem selectbestchild_mem {root best : Node} (h : selectbestchild root = some best) :
    best ∈ root.children := by
  rcases hch : root.children with _ | ⟨c, cs⟩
  · rw [selectbestchild, hch] at h
    exact absurd h (by simp)
  · rw [selectbestchild, hch] at h
    simp only [Option.some.injEq] at h
    rcases bestStep_foldl_mem (c :: cs) c (DScore.val (-1)) with h2 | h2
    · rw [h] at h2
      rw [h2]
      exact List.mem_cons_self c cs
    · rw [h] at h2
      exact h2

/-- The returned action names a concrete position/color pair whose placement
is legal on the board `b` (the spec's notion of a legal returned move); the
`none` sentinel does not qualify. -/
def LegalResult (b : SBoard) : Option (ℕ × Piece) → Prop
  | some (p, c) => (b.apply p c).isSome = true
  | none => False

/-- C5: on a position where the agent (the side to move) has at least one
legal move, with an iteration budget of at least 1, `take_action` returns a
move that is legal in that position. -/
theorem C5_take_action_legal (N T : ℕ) (who : Piece) (σ : ℕ → List ℕ) (b : SBoard)
    (hT : 1 ≤ T) (hperm : (σ 0).Perm (List.range N)) (hwho : b.turn = who)
    (hm : 1 ≤ legalCountB N b) :
    LegalResult b (take_action N who T σ b) := by
  obtain ⟨hg, hmv, hst, hpl, hch0, hch⟩ := searchLoop_facts N who σ b T
  obtain ⟨hmm, hsum⟩ := hch hT
  have hlen : (searchLoop N who σ b T).1.children.length = legalCountB N b := by
    have h2 := congrArg List.length hmm
    simp only [List.length_map] at h2
    rw [h2, expKids_length, legalCountB]
    exact (hperm.filter (fun p => (b.apply p b.turn).isSome)).length_eq
  have hne : (searchLoop N who σ b T).1.children ≠ [] := by
    intro hnil
    rw [hnil] at hlen
    simp at hlen
    omega
  rcases hch2 : (searchLoop N who σ b T).1.children with _ | ⟨c, cs⟩
  · exact absurd hch2 hne
  · have hsel : selectbestchild (searchLoop N who σ b T).1 =
        some ((c :: cs).foldl bestStep (c, DScore.val (-1))).1 := by
      rw [selectbestchild, hch2]
    have hbm : ((c :: cs).foldl bestStep (c, DScore.val (-1))).1 ∈ c :: cs := by
      rcases bestStep_foldl_mem (c :: cs) c (DScore.val (-1)) with h2 | h2
      · rw [h2]; exact List.mem_cons_self c cs
      · exact h2
    have hmem2 : ((c :: cs).foldl bestStep (c, DScore.val (-1))).1.move ∈
        (expKids N who (σ 0) b Piece.white).map Node.move := by
      rw [← hmm, hch2]
      exact List.mem_map_of_mem Node.move hbm
    obtain ⟨x, hx, hxm⟩ := List.mem_map.mp hmem2
    obtain ⟨-, -, -, -, -, p, hp, hleg, hxmove⟩ := expKids_mem hx
    have hta : take_action N who T σ b =
        ((c :: cs).foldl bestStep (c, DScore.val (-1))).1.move := by
      rw [take_action, hsel]
    rw [hta, ← hxm, hxmove]
    show (b.apply p who).isSome = true
    rw [← hwho]
    exact hleg

/-- Witness for `C5_take_action_legal` at a concrete one-point position. -/
theorem C5_witness :
    1 ≤ 1 ∧ (([0] : List ℕ)).Perm (List.range 1) ∧ bOne.turn = Piece.black ∧
      1 ≤ legalCountB 1 bOne ∧
      LegalResult bOne (take_action 1 Piece.black 1 (fun _ => [0]) bOne) := by
  have h1 : (1 : ℕ) ≤ 1 := by decide
  have h2 : ([0] : List ℕ).Perm (List.range 1) := by decide
  have h3 : bOne.turn = Piece.black := rfl
  have h4 : 1 ≤ legalCountB 1 bOne := by decide
  exact ⟨h1, h2, h3, h4, C5_take_action_legal 1 1 Piece.black (fun _ => [0]) bOne h1 h2 h3 h4⟩

/-- C6: whenever the root ends the search with no children — in particular
for a zero iteration budget, or a position with no legal move for the side
to move — `take_action` returns the sentinel `none` (the default-constructed
`action()`), not a move. -/
theorem C6_sentinel (N T : ℕ) (who : Piece) (σ : ℕ → List ℕ) (b : SBoard)
    (h : T = 0 ∨ legalCountB N b = 0) (hperm : (σ 0).Perm (List.range N)) :
    take_action N who T σ b = none := by
  have hchildren : (searchLoop N who σ b T).1.children = [] := by
    rcases h with rfl | hm
    · exact (searchLoop_facts N who σ b 0).2.2.2.2.1 rfl
    · rcases Nat.eq_zero_or_pos T with rfl | hT
      · exact (searchLoop_facts N who σ b 0).2.2.2.2.1 rfl
      · obtain ⟨hmm, -⟩ := (searchLoop_facts N who σ b T).2.2.2.2.2 hT
        have hemp : expKids N who (σ 0) b Piece.white = [] := by
          rw [expKids, List.filterMap_eq_nil]
          intro p hp
          have hpr : p ∈ List.range N := hperm.mem_iff.mp hp
          have hnl : ¬ (b.apply p b.turn).isSome = true := by
            intro hleg
            have hmem : p ∈ (List.range N).filter (fun i => (b.apply i b.turn).isSome) :=
              List.mem_filter.mpr ⟨hpr, hleg⟩
            rw [legalCountB, List.length_eq_zero] at hm
            rw [hm] at hmem
            exact absurd hmem (List.not_mem_nil p)
          rw [if_neg hnl]
        rw [hemp] at hmm
        simpa using hmm
  have hsel : selectbestchild (searchLoop N who σ b T).1 = none := by
    rw [selectbestchild, hchildren]
  rw [take_action, hsel]

/-- Witness for `C6_sentinel`: zero budget on the one-point position. -/
theorem C6_witness :
    ((0 : ℕ) = 0 ∨ legalCountB 1 bOne = 0) ∧ (([0] : List ℕ)).Perm (List.range 1) ∧
      take_action 1 Piece.black 0 (fun _ => [0]) bOne = none := by
  have h1 : (0 : ℕ) = 0 ∨ legalCountB 1 bOne = 0 := Or.inl rfl
  have h2 : ([0] : List ℕ).Perm (List.range 1) := by decide
  exact ⟨h1, h2, C6_sentinel 1 0 Piece.black (fun _ => [0]) bOne h1 h2⟩

theorem random_rollout_eq_nil {b : SBoard} {ps : List ℕ} (h : sweepFirst b ps = none) :
    random_rollout b ps = [] := by
  rw [random_rollout]
  split
  · rfl
  · rename_i m b2 heq
    rw [h] at heq
    cases heq

/-- C2 (code bug): on the one-point-legal position `bOne` (inside a 2-point
board), where the side to move has exactly one legal move — at position 0 —
the rollout terminates immediately with no move played, because
`random_rollout` fills its sweep array with `iota(pos.begin(), pos.end(), 1)`
= `[1, …, N]` and therefore never tries position 0 (and probes the
out-of-range position `N`).  The code path is exercised through the
`rollout` wrapper exactly as in `simulation`: `legal_count()` on the node's
default board is positive, so `random_rollout` runs and returns no moves
even though `legal_move_count(bOne) = 1 ≠ 0`. -/
theorem C2_rollout_bug :
    legalCountB 2 bOne = 1 ∧ ([1, 2] : List ℕ) = List.range' 1 2 ∧
      rollout 2 [1, 2] bOne (Node.new 2) = [] := by
  refine ⟨by decide, by decide, ?_⟩
  have hsw : sweepFirst bOne [1, 2] = none := rfl
  rw [rollout, if_pos (by decide)]
  exact random_rollout_eq_nil hsw

theorem Node.All_iff (P : Node → Prop) (n : Node) :
    Node.All P n ↔ P n ∧ ∀ c ∈ n.children, Node.All P c := by
  constructor
  · intro h
    cases h with
    | intro hp hc => exact ⟨hp, hc⟩
  · intro h
    cases n
    exact Node.All.intro h.1 h.2

theorem updateAt_all (P : Node → Prop)
    (hP : ∀ w g : ℕ, ∀ st : SBoard, ∀ mv : Option (ℕ × Piece), ∀ pl : Piece,
      ∀ cs cs2 : List Node, P (.mk w g st mv pl cs) → P (.mk w g st mv pl cs2))
    (f : Node → Node) (hf : ∀ m, Node.All P m → Node.All P (f m)) :
    ∀ (p : List ℕ) (n : Node), Node.All P n → Node.All P (updateAt n p f) := by
  intro p
  induction p with
  | nil =>
    intro n h
    rw [updateAt_nil]
    exact hf n h
  | cons i q ih =>
    intro n h
    cases n with
    | mk w g st mv pl cs =>
      obtain ⟨hp, hc⟩ := (Node.All_iff P _).mp h
      rw [show updateAt (Node.mk w g st mv pl cs) (i :: q) f =
        Node.mk w g st mv pl (cs.set i (updateAt (cs.getD i dummyNode) q f)) from rfl]
      rcases Nat.lt_or_ge i cs.length with hi | hi
      · refine (Node.All_iff P _).mpr ⟨hP w g st mv pl cs _ hp, ?_⟩
        intro c hcmem
        rcases List.mem_or_eq_of_mem_set hcmem with hmem | rfl
        · exact hc c hmem
        · exact ih _ (hc _ (getD_mem_of_lt dummyNode hi))
      · rw [List.set_eq_of_length_le hi]
        exact (Node.All_iff P _).mpr ⟨hP w g st mv pl cs cs hp, hc⟩

theorem backpropagation_all (P : Node → Prop) (w2 : ℕ)
    (hstep : ∀ w g : ℕ, ∀ st : SBoard, ∀ mv : Option (ℕ × Piece), ∀ pl : Piece,
      ∀ cs cs2 : List Node, P (.mk w g st mv pl cs) →
        P (.mk (w + w2) (g + 1) st mv pl cs2)) :
    ∀ (p : List ℕ) (n : Node), Node.All P n → Node.All P (backpropagation w2 n p) := by
  intro p
  induction p with
  | nil =>
    intro n h
    cases n with
    | mk w g st mv pl cs =>
      obtain ⟨hp, hc⟩ := (Node.All_iff P _).mp h
      exact (Node.All_iff P _).mpr ⟨hstep w g st mv pl cs cs hp, hc⟩
  | cons i q ih =>
    intro n h
    cases n with
    | mk w g st mv pl cs =>
      obtain ⟨hp, hc⟩ := (Node.All_iff P _).mp h
      rw [show backpropagation w2 (Node.mk w g st mv pl cs) (i :: q) =
        Node.mk (w + w2) (g + 1) st mv pl
          (cs.set i (backpropagation w2 (cs.getD i dummyNode) q)) from rfl]
      rcases Nat.lt_or_ge i cs.length with hi | hi
      · refine (Node.All_iff P _).mpr ⟨hstep w g st mv pl cs _ hp, ?_⟩
        intro c hcmem
        rcases List.mem_or_eq_of_mem_set hcmem with hmem | rfl
        · exact hc c hmem
        · exact ih _ (hc _ (getD_mem_of_lt dummyNode hi))
      · rw [List.set_eq_of_length_le hi]
        exact (Node.All_iff P _).mpr ⟨hstep w g st mv pl cs cs hp, hc⟩

theorem expansion_all (N : ℕ) (who : Piece) (sp : List ℕ) (b : SBoard) (P : Node → Prop)
    (hP : ∀ w g : ℕ, ∀ st : SBoard, ∀ mv : Option (ℕ × Piece), ∀ pl : Piece,
      ∀ cs cs2 : List Node, P (.mk w g st mv pl cs) → P (.mk w g st mv pl cs2))
    (hkid : ∀ (p : ℕ) (pl : Piece),
      P (.mk 0 0 (defaultBoard N) (some (p, who)) (Piece.flip pl) [])) :
    ∀ n, Node.All P n → Node.All P (expansion N who sp b n) := by
  intro n h
  cases n with
  | mk w g st mv pl cs =>
    obtain ⟨hp, hc⟩ := (Node.All_iff P _).mp h
    rw [show expansion N who sp b (Node.mk w g st mv pl cs) =
      Node.mk w g st mv pl (cs ++ expKids N who sp b pl) from rfl]
    refine (Node.All_iff P _).mpr ⟨hP w g st mv pl cs _ hp, ?_⟩
    intro c hcmem
    rcases List.mem_append.mp hcmem with hmem | hmem
    · exact hc c hmem
    · obtain ⟨hg0, hw0, hch0, hst0, hpl0, p, hp2, hleg, hmv0⟩ := expKids_mem hmem
      have hcform : c = Node.mk 0 0 (defaultBoard N) (some (p, who)) pl.flip [] := by
        rw [Node.eta c, hw0, hg0, hst0, hmv0, hpl0, hch0]
      rw [hcform]
      exact (Node.All_iff P _).mpr ⟨hkid p pl, fun x hx => absurd hx (List.not_mem_nil x)⟩

theorem iterOnce_all (N : ℕ) (who : Piece) (σ : ℕ → List ℕ) (state : SBoard)
    (P : Node → Prop)
    (hP : ∀ w g : ℕ, ∀ st : SBoard, ∀ mv : Option (ℕ × Piece), ∀ pl : Piece,
      ∀ cs cs2 : List Node, P (.mk w g st mv pl cs) → P (.mk w g st mv pl cs2))
    (hstep : ∀ w2 : ℕ, w2 ≤ 1 → ∀ w g : ℕ, ∀ st : SBoard, ∀ mv : Option (ℕ × Piece),
      ∀ pl : Piece, ∀ cs cs2 : List Node, P (.mk w g st mv pl cs) →
        P (.mk (w + w2) (g + 1) st mv pl cs2))
    (hkid : ∀ (p : ℕ) (pl : Piece),
      P (.mk 0 0 (defaultBoard N) (some (p, who)) (Piece.flip pl) []))
    (rc : Node × ℕ) (h : Node.All P rc.1) :
    Node.All P (iterOnce N who σ state rc).1 := by
  simp only [iterOnce]
  by_cases hcur : (selection state rc.1).2.1.games = 0
  · rw [if_pos hcur]
    show Node.All P (backpropagation _ _ _)
    apply backpropagation_all P _ (hstep _ (simulation_le_one _ _ _ _ _))
    exact updateAt_all P hP _ (expansion_all N who (σ rc.2) (selection state rc.1).2.2 P hP hkid)
      (selection state rc.1).1 rc.1 h
  · rw [if_neg hcur]
    show Node.All P (backpropagation _ _ _)
    exact backpropagation_all P _ (hstep _ (simulation_le_one _ _ _ _ _))
      (selection state rc.1).1 rc.1 h

theorem searchLoop_all (N : ℕ) (who : Piece) (σ : ℕ → List ℕ) (b : SBoard)
    (P : Node → Prop)
    (hP : ∀ w g : ℕ, ∀ st : SBoard, ∀ mv : Option (ℕ × Piece), ∀ pl : Piece,
      ∀ cs cs2 : List Node, P (.mk w g st mv pl cs) → P (.mk w g st mv pl cs2))
    (hstep : ∀ w2 : ℕ, w2 ≤ 1 → ∀ w g : ℕ, ∀ st : SBoard, ∀ mv : Option (ℕ × Piece),
      ∀ pl : Piece, ∀ cs cs2 : List Node, P (.mk w g st mv pl cs) →
        P (.mk (w + w2) (g + 1) st mv pl cs2))
    (hkid : ∀ (p : ℕ) (pl : Piece),
      P (.mk 0 0 (defaultBoard N) (some (p, who)) (Piece.flip pl) []))
    (hroot : Node.All P (rootInit N)) :
    ∀ k, Node.All P (searchLoop N who σ b k).1 := by
  intro k
  induction k with
  | zero => exact hroot
  | succ k ih => exact iterOnce_all N who σ b P hP hstep hkid (searchLoop N who σ b k) ih

/-- C7: after every search iteration, every node of the tree satisfies
`win ≤ games` — each backpropagation step adds 1 to `games` and the 0/1
simulation outcome to `win` at every node on the selected path, and every
node starts at `0/0`. -/
theorem C7_wins_le_visits (N : ℕ) (who : Piece) (σ : ℕ → List ℕ) (b : SBoard) (k : ℕ) :
    Node.All (fun n => n.win ≤ n.games) (searchLoop N who σ b k).1 := by
  apply searchLoop_all
  · intro w g st mv pl cs cs2 hp
    exact hp
  · intro w2 hw2 w g st mv pl cs cs2 hp
    show w + w2 ≤ g + 1
    have : w ≤ g := hp
    omega
  · intro p pl
    exact Nat.le_refl 0
  · exact (Node.All_iff _ _).mpr ⟨Nat.le_refl 0, fun c hc => absurd hc (List.not_mem_nil c)⟩

/-- C10: no search operation ever assigns a node's `state` member, so every
node created during `take_action` keeps the default-constructed board, and
`Node::legal_count` always returns the legal-move count of that default
board — independent of the node's actual position in the game tree. -/
theorem C10_state_never_assigned (N : ℕ) (who : Piece) (σ : ℕ → List ℕ) (b : SBoard)
    (k : ℕ) :
    Node.All (fun n => n.state = defaultBoard N ∧
      Node.legal_count N n = legalCountB N (defaultBoard N)) (searchLoop N who σ b k).1 := by
  apply searchLoop_all
  · intro w g st mv pl cs cs2 hp
    exact hp
  · intro w2 hw2 w g st mv pl cs cs2 hp
    exact hp
  · intro p pl
    exact ⟨rfl, rfl⟩
  · exact (Node.All_iff _ _).mpr ⟨⟨rfl, rfl⟩, fun c hc => absurd hc (List.not_mem_nil c)⟩

theorem searchLoop_ctr_le (N : ℕ) (who : Piece) (σ : ℕ → List ℕ) (b : SBoard) :
    ∀ k, (searchLoop N who σ b k).2 ≤ 2 * k := by
  intro k
  induction k with
  | zero => exact Nat.le_refl 0
  | succ k ih =>
    have hstep : (iterOnce N who σ b (searchLoop N who σ b k)).2 ≤
        (searchLoop N who σ b k).2 + 2 := by
      simp only [iterOnce]
      by_cases hcur : (selection b (searchLoop N who σ b k).1).2.1.games = 0
      · rw [if_pos hcur]
        show (searchLoop N who σ b k).2 + 1 + (if _ then 1 else 0) ≤ _
        split <;> omega
      · rw [if_neg hcur]
        show (searchLoop N who σ b k).2 + (if _ then 1 else 0) ≤ _
        split <;> omega
    show (iterOnce N who σ b (searchLoop N who σ b k)).2 ≤ 2 * (k + 1)
    omega

/-- One iteration reads the RNG stream only at the current draw counter and
its successor. -/
theorem iterOnce_congr (N : ℕ) (who : Piece) (state : SBoard) (σ1 σ2 : ℕ → List ℕ)
    (rc : Node × ℕ) (h0 : σ1 rc.2 = σ2 rc.2) (h1 : σ1 (rc.2 + 1) = σ2 (rc.2 + 1)) :
    iterOnce N who σ1 state rc = iterOnce N who σ2 state rc := by
  simp only [iterOnce, h0, h1]

theorem searchLoop_congr (N : ℕ) (who : Piece) (b : SBoard) (σ1 σ2 : ℕ → List ℕ)
    (T : ℕ) (h : ∀ i < 2 * T, σ1 i = σ2 i) :
    ∀ k, k ≤ T → searchLoop N who σ1 b k = searchLoop N who σ2 b k := by
  intro k
  induction k with
  | zero => intro _; rfl
  | succ k ih =>
    intro hk
    have heq := ih (Nat.le_of_succ_le hk)
    show iterOnce N who σ1 b (searchLoop N who σ1 b k) =
      iterOnce N who σ2 b (searchLoop N who σ2 b k)
    rw [← heq]
    have hc := searchLoop_ctr_le N who σ1 b k
    refine iterOnce_congr N who b σ1 σ2 _ (h _ (by omega)) (h _ (by omega))

/-- C9: the search is a deterministic function of the seed, the iteration
budget, and the input position: with the RNG draws fixed (two streams that
agree on the at most `2T` shuffle draws a `T`-iteration search can consume),
two runs of `take_action` from the same position return the same move. -/
theorem C9_deterministic (N T : ℕ) (who : Piece) (σ1 σ2 : ℕ → List ℕ) (b : SBoard)
    (h : ∀ i < 2 * T, σ1 i = σ2 i) :
    take_action N who T σ1 b = take_action N who T σ2 b := by
  rw [take_action, take_action, searchLoop_congr N who b σ1 σ2 T h T (Nat.le_refl T)]

/-- Witness for `C9_deterministic`: two concrete streams agreeing on the
consumed prefix. -/
theorem C9_witness :
    (∀ i < 2 * 1, (fun _ : ℕ => ([0] : List ℕ)) i =
      (fun i : ℕ => if i ≤ 1 then ([0] : List ℕ) else []) i) ∧
    take_action 1 Piece.black 1 (fun _ : ℕ => ([0] : List ℕ)) bOne =
      take_action 1 Piece.black 1 (fun i : ℕ => if i ≤ 1 then ([0] : List ℕ) else []) bOne := by
  have h : ∀ i < 2 * 1, (fun _ : ℕ => ([0] : List ℕ)) i =
      (fun i : ℕ => if i ≤ 1 then ([0] : List ℕ) else []) i := by decide
  exact ⟨h, C9_deterministic 1 1 Piece.black _ _ bOne h⟩
